import Mathlib

/-!
Verification of the chunking and markdown-segmentation engine of the
partition API (`src/chunker.py`): the structural-element model, the
element router of `parse_markdown`, and the assembling/batching fold of
`chunk_documents`.  The chonkie splitting library (TableChunker,
CodeChunker, RecursiveChunker, MarkdownChef) is an external collaborator:
its operations enter as oracle functions bundled in `Collab` / `ChefParts`,
with the code splitter allowed to fail (`Except`), matching the spec's
collaborator contracts.
-/

namespace Chunker

/-- A markdown table element (chonkie `MarkdownTable`): content and start offset. -/
structure MarkdownTable where
  content : String
  start_index : Nat
deriving DecidableEq, Repr

/-- A markdown code-block element (chonkie `MarkdownCode`). -/
structure MarkdownCode where
  content : String
  language : Option String
  start_index : Nat
deriving DecidableEq, Repr

/-- A markdown image element (chonkie `MarkdownImage`); only its offset matters here. -/
structure MarkdownImage where
  start_index : Nat
deriving DecidableEq, Repr

/-- A prose segment (an entry of `document.chunks` in chonkie's parsed document). -/
structure ProseChunk where
  text : String
  start_index : Nat
deriving DecidableEq, Repr

/-- The parsed document returned by the chef: four offset-stamped element families. -/
structure MarkdownDoc where
  tables : List MarkdownTable
  code : List MarkdownCode
  images : List MarkdownImage
  chunks : List ProseChunk
deriving DecidableEq, Repr

/-- `ChunkOptions` from `src/schema.py`: chunk size (default 2048) and optional language code. -/
structure ChunkOptions where
  chunk_size : Nat := 2048
  language_code : Option String := none
deriving DecidableEq, Repr

/-- The supported-language allow-list `langs` from `src/chunker.py`. -/
def langs : List String :=
  ["af", "am", "ar", "bg", "bn", "ca", "cs", "cy", "da", "de", "en", "es",
   "et", "fa", "fi", "fr", "ga", "gl", "he", "hi", "hr", "hu", "id", "is",
   "it", "jp", "kr", "lt", "lv", "mk", "ms", "mt", "ne", "nl", "no", "pl",
   "pt", "pt-BR", "ro", "ru", "sk", "sl", "sr", "sv", "sw", "ta", "te",
   "th", "tl", "tr", "uk", "ur", "vi", "zh", "zu"]

/-- The `rules` argument a `RecursiveChunker` is constructed with.
`defaultInst` is a default `RecursiveRules()` instance, `locale l` is
`RecursiveRules.from_recipe(lang=l)`, and `classObj` is the bare
`RecursiveRules` class object that the code-fallback branch passes as-is. -/
inductive RulesArg where
  | defaultInst
  | locale (lang : String)
  | classObj
deriving DecidableEq, Repr

/-- The external chonkie splitting collaborators, per the spec's collaborator
contracts: a table splitter, code-splitter construction success and splitting
(both may fail on an unrecognized language), and the recursive prose splitter. -/
structure Collab where
  tableChunk : Nat → String → List String
  mkCodeOk : String → Nat → Bool
  codeChunk : String → Nat → String → Except Unit (List String)
  recChunk : RulesArg → Nat → String → List String

/-- The base `MarkdownChef`'s extraction capabilities for tables, code and prose. -/
structure ChefParts where
  extractTables : String → List MarkdownTable
  extractCode : String → List MarkdownCode
  extractText : String → List ProseChunk

/-- `CustomMarkdownChef.extract_images` from `src/chunker.py`: image extraction
is disabled by returning the empty list. -/
def extract_images (_markdown : String) : List MarkdownImage := []

/-- Modelled from the spec: `MarkdownChef.parse` (chonkie library code, not under
`src/`) returns the four offset-stamped element families of §4.1, the images
family being supplied by the chef's `extract_images`, which
`CustomMarkdownChef` overrides to return `[]`. -/
def chefParse (P : ChefParts) (markdown : String) : MarkdownDoc :=
  { tables := P.extractTables markdown
    code := P.extractCode markdown
    images := extract_images markdown
    chunks := P.extractText markdown }

/-- One entry of the combined `items` list in `parse_markdown`. -/
inductive Item where
  | table (t : MarkdownTable)
  | code (c : MarkdownCode)
  | image (i : MarkdownImage)
  | prose (p : ProseChunk)
deriving DecidableEq, Repr

/-- The `start_index` sort key of an item. -/
def Item.start_index : Item → Nat
  | .table t => t.start_index
  | .code c => c.start_index
  | .image i => i.start_index
  | .prose p => p.start_index

/-- Whether an item is an image element. -/
def Item.isImage : Item → Bool
  | .image _ => true
  | _ => false

/-- The combined `items` list of `parse_markdown` before sorting: tables, then
code, then images, then prose, in that fixed concatenation order. -/
def itemsOf (d : MarkdownDoc) : List Item :=
  d.tables.map Item.table ++ d.code.map Item.code ++
    d.images.map Item.image ++ d.chunks.map Item.prose

/-- The comparison used for `items.sort(key=lambda x: x.start_index)`. -/
def startLe (a b : Item) : Bool := a.start_index ≤ b.start_index

/-- Stable insertion of `x` into `l`: `x` is placed before the first element
it compares `le` to, so existing elements keep their relative order and an
inserted element goes after earlier-inserted equals. -/
def insortBy {α : Type} (le : α → α → Bool) (x : α) : List α → List α
  | [] => [x]
  | y :: ys => if le x y then x :: y :: ys else y :: insortBy le x ys

/-- Stable insertion sort.  Python's `list.sort` is stable, and a stable sort
by a fixed key is extensionally unique, so this models
`items.sort(key=lambda x: x.start_index)` exactly. -/
def isort {α : Type} (le : α → α → Bool) : List α → List α
  | [] => []
  | x :: xs => insortBy le x (isort le xs)

/-- The sorted `items` list of `parse_markdown`: the chef parses
`markdown + "\n"`, the four families are concatenated and stably sorted by
`start_index`. -/
def sortedItems (P : ChefParts) (markdown : String) : List Item :=
  isort startLe (itemsOf (chefParse P (markdown ++ "\n")))

/-- The prose rules selected at the top of `parse_markdown`:
`RecursiveRules.from_recipe(lang=language)` when the language is set and in
`langs`, otherwise a default `RecursiveRules()` instance. -/
def rulesFor (language_code : Option String) : RulesArg :=
  match language_code with
  | some l => if l ∈ langs then RulesArg.locale l else RulesArg.defaultInst
  | none => RulesArg.defaultInst

/-- The lazily-constructed splitter state carried through `parse_markdown`'s
loop: the recursive chunker is identified by the rules it was built with,
the code chunker by its language.  (The table chunker is also lazy but its
construction is observationally pure, so it needs no state here.) -/
structure PState where
  rc : Option RulesArg := none
  cc : Option String := none
deriving DecidableEq, Repr

/-- The `try` block of the code branch (lines 122-130 of `src/chunker.py`):
a new code chunker is built when none exists or when the block declares a
non-null language different from the current chunker's; construction may
fail, and so may the chunk call.  Returns the code-chunker state after the
block (reflecting assignments made before any raise) and the outcome. -/
def codeTry (C : Collab) (csz : Nat) (cc : Option String) (c : MarkdownCode) :
    Option String × Except Unit (List String) :=
  match cc with
  | none =>
      let lang := c.language.getD "auto"
      if C.mkCodeOk lang csz then (some lang, C.codeChunk lang csz c.content)
      else (none, Except.error ())
  | some L =>
      match c.language with
      | some l =>
          if L ≠ l then
            if C.mkCodeOk l csz then (some l, C.codeChunk l csz c.content)
            else (some L, Except.error ())
          else (some L, C.codeChunk L csz c.content)
      | none => (some L, C.codeChunk L csz c.content)

/-- The body of `parse_markdown`'s per-item loop: pick the splitter by element
type, with the code branch falling back to the recursive prose splitter on
failure (lazily constructing it with the bare `RecursiveRules` class object
when none exists yet).  Returns the updated state and the element's raw
chunk texts.  The image branch is unreachable (the images family is always
empty); it is given the vacuous value `(st, [])`. -/
def processItem (C : Collab) (rules : RulesArg) (csz : Nat) (st : PState) :
    Item → PState × List String
  | .table t => (st, C.tableChunk csz t.content)
  | .code c =>
      match codeTry C csz st.cc c with
      | (cc2, Except.ok chunks) => ({ st with cc := cc2 }, chunks)
      | (cc2, Except.error _) =>
          let r := st.rc.getD RulesArg.classObj
          ({ rc := some r, cc := cc2 }, C.recChunk r csz c.content)
  | .image _ => (st, [])
  | .prose p =>
      let r := st.rc.getD rules
      ({ st with rc := some r }, C.recChunk r csz p.text)

/-- Runs `processItem` over the sorted items, threading the splitter state and
recording, per item, the raw chunk texts it produced. -/
def runItems (C : Collab) (rules : RulesArg) (csz : Nat) :
    PState → List Item → PState × List (Item × List String)
  | st, [] => (st, [])
  | st, it :: its =>
      let p := processItem C rules csz st it
      let rest := runItems C rules csz p.1 its
      (rest.1, (it, p.2) :: rest.2)

/-- One output record of `parse_markdown`: stripped text plus per-document
sequence number. -/
structure PChunk where
  text : String
  sequence_number : Nat
deriving DecidableEq, Repr

/-- The emit loop of `parse_markdown` (lines 144-153): number the stripped
chunk texts with a counter starting at `n`. -/
def numberP : Nat → List String → List PChunk
  | _, [] => []
  | n, t :: ts => { text := t, sequence_number := n } :: numberP (n + 1) ts

/-- The per-item provenance of one `parse_markdown` call: each sorted item
paired with the raw chunk texts its splitter returned, in order. -/
def parseParts (C : Collab) (P : ChefParts) (markdown : String)
    (co : ChunkOptions) : List (Item × List String) :=
  (runItems C (rulesFor co.language_code) co.chunk_size {} (sortedItems P markdown)).2

/-- `parse_markdown` from `src/chunker.py`: chunk each sorted item, strip each
chunk's text, and number the flattened stream from 0. -/
def parse_markdown (C : Collab) (P : ChefParts) (markdown : String)
    (co : ChunkOptions) : List PChunk :=
  numberP 0 ((parseParts C P markdown co).flatMap (fun pr => pr.2.map String.trim))

/-- A document handed to `chunk_documents`: markdown text and an optional page
number (`doc["page"] if "page" in doc else None`). -/
structure Doc where
  text : String
  page : Option Int
deriving DecidableEq, Repr

/-- A chunk record built in `chunk_documents` (lines 173-180): fresh id,
chunk text, global sequence number, and the document's page number when
present (`none` models the absent `page_number` key). -/
structure ChunkRec where
  id : String
  text : String
  sequence_number : Nat
  page_number : Option Int
deriving DecidableEq, Repr

/-- The `batches` list of `chunk_documents`: with `batch_size = None` chunk
records are appended directly (a flat list); otherwise it is a list of groups. -/
inductive Batches where
  | flat (chunks : List ChunkRec)
  | grouped (groups : List (List ChunkRec))
deriving DecidableEq, Repr

/-- The flat-mode view of `batches` (the grouped case is unreachable in a
`batch_size = None` call, where `batches` starts and stays flat). -/
def Batches.flatList : Batches → List ChunkRec
  | .flat l => l
  | .grouped _ => []

/-- The grouped-mode view of `batches` (the flat case is unreachable in a
positive-`batch_size` call, where `batches` starts and stays grouped). -/
def Batches.groupList : Batches → List (List ChunkRec)
  | .grouped l => l
  | .flat _ => []

/-- The loop state of `chunk_documents`: the accumulators declared on lines
161-165 of `src/chunker.py`, also serving as the function's result. -/
structure CDState where
  batches : Batches
  total_characters : Nat
  total_chunks : Nat
  total_batches : Nat
deriving DecidableEq, Repr

/-- The grouped-mode append (lines 189-195): start a new group when `batches`
is empty or the last group's length is an exact multiple of `batch_size`
(incrementing `total_batches`), else append to the last group. -/
def pushGrouped (b : Nat) (gs : List (List ChunkRec)) (tb : Nat)
    (c : ChunkRec) : List (List ChunkRec) × Nat :=
  if gs.length = 0 ∨ (gs.getLast?.getD []).length % b = 0 then
    (gs ++ [[c]], tb + 1)
  else
    (gs.dropLast ++ [(gs.getLast?.getD []) ++ [c]], tb)

/-- The body of `chunk_documents`'s inner loop (lines 172-195): build the
chunk record (`gen` models the stream of `str(uuid.uuid4())` results, indexed
by the global call count, one call per chunk), bump the totals, and append to
`batches` according to the batching mode. -/
def emitChunk (gen : Nat → String) (batch_size : Option Nat)
    (page : Option Int) (st : CDState) (c : PChunk) : CDState :=
  let cd : ChunkRec :=
    { id := gen st.total_chunks
      text := c.text
      sequence_number := st.total_chunks
      page_number := page }
  let counted : CDState :=
    { st with
      total_chunks := st.total_chunks + 1
      total_characters := st.total_characters + cd.text.length }
  match batch_size with
  | none => { counted with batches := Batches.flat (st.batches.flatList ++ [cd]) }
  | some b =>
      let pg := pushGrouped b st.batches.groupList st.total_batches cd
      { counted with batches := Batches.grouped pg.1, total_batches := pg.2 }

/-- `chunk_documents` from `src/chunker.py`: parse each document's text, and
emit its chunks into the shared accumulators (global sequence numbers, per
document page number, character/chunk/batch totals, flat or grouped batches). -/
def chunk_documents (C : Collab) (P : ChefParts) (gen : Nat → String)
    (documents : List Doc) (batch_size : Option Nat)
    (co : ChunkOptions) : CDState :=
  documents.foldl
    (fun st doc =>
      (parse_markdown C P doc.text co).foldl (emitChunk gen batch_size doc.page) st)
    { batches := match batch_size with
        | none => Batches.flat []
        | some _ => Batches.grouped []
      total_characters := 0
      total_chunks := 0
      total_batches := 0 }

/-- The emitted chunk stream of a result, in order: the flat list itself, or
the concatenation of the groups. -/
def chunkStream : Batches → List ChunkRec
  | .flat l => l
  | .grouped gs => gs.flatten

/-- Grouping of a list into consecutive blocks of `b` (last block possibly
shorter): the intended effect of the grouped-mode append. -/
def group {α : Type} (b : Nat) : List α → List (List α)
  | [] => []
  | x :: xs =>
      if b = 0 then [x :: xs]
      else (x :: xs).take b :: group b ((x :: xs).drop b)
termination_by l => l.length
decreasing_by
  simp only [List.length_drop, List.length_cons]
  omega

/-- The texts of the chunks `parse_markdown` yields for one document. -/
def docChunkTexts (C : Collab) (P : ChefParts) (co : ChunkOptions)
    (d : Doc) : List String :=
  (parse_markdown C P d.text co).map PChunk.text

/-- The (text, page) stream of one `chunk_documents` call: documents in order,
each contributing its parsed chunk texts tagged with its page number. -/
def docStream (C : Collab) (P : ChefParts) (co : ChunkOptions)
    (documents : List Doc) : List (String × Option Int) :=
  documents.flatMap (fun d => (docChunkTexts C P co d).map (fun t => (t, d.page)))

/-- Numbering a (text, page) stream into chunk records from counter `n`. -/
def numberRecs (gen : Nat → String) : Nat → List (String × Option Int) → List ChunkRec
  | _, [] => []
  | n, tp :: tps =>
      { id := gen n, text := tp.1, sequence_number := n, page_number := tp.2 } ::
        numberRecs gen (n + 1) tps

/-- The closed form of `chunk_documents`'s state after a given (text, page)
stream has been emitted. -/
def canonState (gen : Nat → String) (batch_size : Option Nat)
    (tp : List (String × Option Int)) : CDState :=
  { batches := match batch_size with
      | none => Batches.flat (numberRecs gen 0 tp)
      | some b => Batches.grouped (group b (numberRecs gen 0 tp))
    total_characters := (tp.map (fun x => x.1.length)).sum
    total_chunks := tp.length
    total_batches := match batch_size with
      | none => 0
      | some b => (group b (numberRecs gen 0 tp)).length }

/-- The chunk records of document `d` when its chunks start at global counter
`off`. -/
def docRecs (C : Collab) (P : ChefParts) (co : ChunkOptions) (gen : Nat → String)
    (d : Doc) (off : Nat) : List ChunkRec :=
  numberRecs gen off ((docChunkTexts C P co d).map (fun t => (t, d.page)))

/-- Per-document segments of the emitted chunk stream, threading the global
counter across documents. -/
def docsRecs (C : Collab) (P : ChefParts) (co : ChunkOptions) (gen : Nat → String) :
    List Doc → Nat → List (List ChunkRec)
  | [], _ => []
  | d :: ds, off =>
      docRecs C P co gen d off ::
        docsRecs C P co gen ds (off + (docChunkTexts C P co d).length)

/-- A valid `batch_size` argument: batching disabled, or a positive group size
(Python raises `ZeroDivisionError` on `batch_size = 0`, which the claims do
not cover). -/
def BatchOk (batch_size : Option Nat) : Prop :=
  batch_size = none ∨ ∃ b, batch_size = some b ∧ 0 < b

/-- A chunk record with its freshly generated id blanked out. -/
def scrubRec (c : ChunkRec) : ChunkRec := { c with id := "" }

/-- `batches` with every chunk record's id blanked out. -/
def scrubBatches : Batches → Batches
  | .flat l => .flat (l.map scrubRec)
  | .grouped gs => .grouped (gs.map (fun g => g.map scrubRec))

/-- A trivial splitting collaborator for concrete runs: every splitter
returns its input as a single piece. -/
def oneC : Collab :=
  { tableChunk := fun _ s => [s]
    mkCodeOk := fun _ _ => true
    codeChunk := fun _ _ s => Except.ok [s]
    recChunk := fun _ _ s => [s] }

/-- A collaborator whose code splitter always fails and whose prose splitter
tags its output with the rules it was invoked with. -/
def failC : Collab :=
  { tableChunk := fun _ s => [s]
    mkCodeOk := fun _ _ => false
    codeChunk := fun _ _ _ => Except.error ()
    recChunk := fun r _ s =>
      match r with
      | RulesArg.defaultInst => ["DEF:" ++ s]
      | RulesArg.locale l => ["LOC:" ++ l ++ ":" ++ s]
      | RulesArg.classObj => ["CLS:" ++ s] }

/-- A chef whose parse yields one prose element at offset 0 and one code block
with an unrecognized language at offset 10. -/
def proseThenCodeP : ChefParts :=
  { extractTables := fun _ => []
    extractCode := fun _ =>
      [{ content := "badcode", language := some "xyz", start_index := 10 }]
    extractText := fun _ => [{ text := "hello", start_index := 0 }] }

/-- A chef whose parse yields a table, a code block and a prose segment all at
the same offset 5. -/
def equalOffP : ChefParts :=
  { extractTables := fun _ => [{ content := "T", start_index := 5 }]
    extractCode := fun _ => [{ content := "C", language := none, start_index := 5 }]
    extractText := fun _ => [{ text := "P", start_index := 5 }] }

/-- A chef whose parse yields the whole input as one prose element. -/
def textP : ChefParts :=
  { extractTables := fun _ => []
    extractCode := fun _ => []
    extractText := fun s => [{ text := s, start_index := 0 }] }

/-- A concrete id generator standing in for the per-call stream of
`str(uuid.uuid4())` results. -/
def genFn (n : Nat) : String := "uuid-" ++ toString n

/-- A second concrete id generator, distinct from `genFn`. -/
def genFn2 (n : Nat) : String := "run2-" ++ toString n

theorem insortBy_perm {α : Type} (le : α → α → Bool) (x : α) (l : List α) :
    (insortBy le x l).Perm (x :: l) := by
  induction l with
  | nil => exact List.Perm.refl _
  | cons y ys ih =>
      rw [insortBy]
      split
      · exact List.Perm.refl _
      · exact (ih.cons y).trans (List.Perm.swap x y ys)

theorem isort_perm {α : Type} (le : α → α → Bool) (l : List α) :
    (isort le l).Perm l := by
  induction l with
  | nil => exact List.Perm.refl _
  | cons x xs ih => exact (insortBy_perm le x (isort le xs)).trans (ih.cons x)

theorem sublist_insortBy {α : Type} (le : α → α → Bool) (x : α) (l : List α) :
    l.Sublist (insortBy le x l) := by
  induction l with
  | nil => simp [insortBy]
  | cons y ys ih =>
      rw [insortBy]
      split
      · exact List.sublist_cons_self x (y :: ys)
      · exact List.Sublist.cons₂ y ih

theorem insortBy_pair {α : Type} (le : α → α → Bool) (x b : α)
    (hxb : le x b = true) :
    ∀ l : List α, b ∈ l → [x, b].Sublist (insortBy le x l) := by
  intro l
  induction l with
  | nil => intro h; simp at h
  | cons y ys ih =>
      intro hb
      rw [insortBy]
      by_cases h : le x y = true
      · rw [if_pos h]
        exact List.Sublist.cons₂ x (List.singleton_sublist.mpr hb)
      · rw [if_neg h]
        rcases List.mem_cons.mp hb with rfl | hmem
        · exact absurd hxb h
        · exact List.Sublist.cons y (ih hmem)

theorem isort_stable_pair {α : Type} (le : α → α → Bool) {a b : α}
    (hab : le a b = true) :
    ∀ l : List α, [a, b].Sublist l → [a, b].Sublist (isort le l) := by
  intro l
  induction l with
  | nil => intro h; simp at h
  | cons x xs ih =>
      intro h
      cases h with
      | cons _ h' => exact (ih h').trans (sublist_insortBy le x (isort le xs))
      | cons₂ _ h' =>
          exact insortBy_pair le a b hab (isort le xs)
            ((isort_perm le xs).mem_iff.mpr (List.singleton_sublist.mp h'))

theorem insortBy_pairwise {α : Type} (le : α → α → Bool)
    (htrans : ∀ a b c, le a b = true → le b c = true → le a c = true)
    (htotal : ∀ a b, (le a b || le b a) = true)
    (x : α) (l : List α) (hl : l.Pairwise (fun a b => le a b = true)) :
    (insortBy le x l).Pairwise (fun a b => le a b = true) := by
  induction l with
  | nil => simp [insortBy]
  | cons y ys ih =>
      rw [insortBy]
      rcases List.pairwise_cons.mp hl with ⟨hy, hys⟩
      by_cases h : le x y = true
      · rw [if_pos h]
        refine List.Pairwise.cons ?_ hl
        intro z hz
        rcases List.mem_cons.mp hz with rfl | hmem
        · exact h
        · exact htrans x y z h (hy z hmem)
      · rw [if_neg h]
        refine List.Pairwise.cons ?_ (ih hys)
        intro z hz
        have hz' : z ∈ x :: ys := (insortBy_perm le x ys).mem_iff.mp hz
        rcases List.mem_cons.mp hz' with rfl | hmem
        · have h2 := htotal z y
          rw [Bool.or_eq_true] at h2
          rcases h2 with h2 | h2
          · exact absurd h2 h
          · exact h2
        · exact hy z hmem

theorem isort_pairwise {α : Type} (le : α → α → Bool)
    (htrans : ∀ a b c, le a b = true → le b c = true → le a c = true)
    (htotal : ∀ a b, (le a b || le b a) = true)
    (l : List α) : (isort le l).Pairwise (fun a b => le a b = true) := by
  induction l with
  | nil => simp [isort]
  | cons x xs ih => exact insortBy_pairwise le htrans htotal x (isort le xs) ih

theorem startLe_trans (a b c : Item) (h1 : startLe a b = true)
    (h2 : startLe b c = true) : startLe a c = true := by
  simp only [startLe, decide_eq_true_eq] at *
  omega

theorem startLe_total (a b : Item) : (startLe a b || startLe b a) = true := by
  simp only [startLe, Bool.or_eq_true, decide_eq_true_eq]
  omega

theorem group_nil {α : Type} (b : Nat) : group b ([] : List α) = [] := by
  rw [group]

theorem group_cons {α : Type} (b : Nat) (x : α) (xs : List α) :
    group b (x :: xs) = if b = 0 then [x :: xs]
      else (x :: xs).take b :: group b ((x :: xs).drop b) := by
  rw [group]

theorem group_ne_nil {α : Type} (b : Nat) (l : List α) (h : l ≠ []) :
    group b l ≠ [] := by
  cases l with
  | nil => exact absurd rfl h
  | cons x xs =>
      rw [group_cons]
      split <;> simp

theorem group_flatten {α : Type} (b : Nat) (hb : 0 < b) :
    ∀ l : List α, (group b l).flatten = l := by
  intro l
  generalize hn : l.length = n
  induction n using Nat.strong_induction_on generalizing l with
  | _ n ih =>
    subst hn
    cases l with
    | nil => rw [group_nil]; rfl
    | cons x xs =>
        have hlt : ((x :: xs).drop b).length < (x :: xs).length := by
          simp only [List.length_drop, List.length_cons]; omega
        rw [group_cons, if_neg (Nat.pos_iff_ne_zero.mp hb), List.flatten_cons,
          ih _ hlt _ rfl, List.take_append_drop]

theorem group_length {α : Type} (b : Nat) (hb : 0 < b) :
    ∀ l : List α, (group b l).length = (l.length + b - 1) / b := by
  intro l
  generalize hn : l.length = n
  induction n using Nat.strong_induction_on generalizing l with
  | _ n ih =>
    subst hn
    cases l with
    | nil =>
        rw [group_nil]
        symm
        simp only [List.length_nil, List.length_nil]
        exact Nat.div_eq_of_lt (by omega)
    | cons x xs =>
        have hb' : b ≠ 0 := by omega
        have hlt : ((x :: xs).drop b).length < (x :: xs).length := by
          simp only [List.length_drop, List.length_cons]; omega
        rw [group_cons, if_neg hb', List.length_cons, ih _ hlt _ rfl]
        simp only [List.length_drop, List.length_cons]
        rcases le_or_lt b (xs.length + 1) with hle | hgt
        · have h1 : xs.length + 1 - b + b - 1 = xs.length := by omega
          have h2 : xs.length + 1 + b - 1 = xs.length + b := by omega
          rw [h1, h2, Nat.add_div_right _ hb]
        · have h1 : xs.length + 1 - b = 0 := by omega
          rw [h1, Nat.div_eq_of_lt (by omega : 0 + b - 1 < b),
            Nat.div_eq_of_lt_le (by omega : 1 * b ≤ xs.length + 1 + b - 1)
              (by omega : xs.length + 1 + b - 1 < (1 + 1) * b)]

theorem group_dropLast_length {α : Type} (b : Nat) (hb : 0 < b) :
    ∀ l : List α, ∀ g ∈ (group b l).dropLast, g.length = b := by
  intro l
  generalize hn : l.length = n
  induction n using Nat.strong_induction_on generalizing l with
  | _ n ih =>
    subst hn
    cases l with
    | nil => rw [group_nil]; intro g hg; simp at hg
    | cons x xs =>
        have hb' : b ≠ 0 := by omega
        rw [group_cons, if_neg hb']
        rcases eq_or_ne ((x :: xs).drop b) [] with hdrop | hdrop
        · rw [hdrop, group_nil]
          intro g hg
          simp at hg
        · have hrest : group b ((x :: xs).drop b) ≠ [] := group_ne_nil b _ hdrop
          rw [List.dropLast_cons_of_ne_nil hrest]
          intro g hg
          rcases List.mem_cons.mp hg with rfl | hmem
          · have hblt : b < xs.length + 1 := by
              by_contra hc
              exact hdrop (List.drop_eq_nil_of_le
                (by simp only [List.length_cons]; omega))
            rw [List.length_take]
            simp only [List.length_cons]
            omega
          · have hlt : ((x :: xs).drop b).length < (x :: xs).length := by
              simp only [List.length_drop, List.length_cons]; omega
            exact ih _ hlt _ rfl g hmem

theorem group_mem_length {α : Type} (b : Nat) (hb : 0 < b) :
    ∀ l : List α, ∀ g ∈ group b l, 1 ≤ g.length ∧ g.length ≤ b := by
  intro l
  generalize hn : l.length = n
  induction n using Nat.strong_induction_on generalizing l with
  | _ n ih =>
    subst hn
    cases l with
    | nil => rw [group_nil]; intro g hg; simp at hg
    | cons x xs =>
        have hb' : b ≠ 0 := by omega
        rw [group_cons, if_neg hb']
        intro g hg
        rcases List.mem_cons.mp hg with rfl | hmem
        · rw [List.length_take]
          simp only [List.length_cons]
          omega
        · have hlt : ((x :: xs).drop b).length < (x :: xs).length := by
            simp only [List.length_drop, List.length_cons]; omega
          exact ih _ hlt _ rfl g hmem

theorem group_getLast_length {α : Type} (b : Nat) (hb : 0 < b) :
    ∀ l : List α, l ≠ [] →
      ((group b l).getLast?.getD []).length = (l.length - 1) % b + 1 := by
  intro l
  generalize hn : l.length = n
  induction n using Nat.strong_induction_on generalizing l with
  | _ n ih =>
    subst hn
    cases l with
    | nil => intro h; exact absurd rfl h
    | cons x xs =>
        intro _
        have hb' : b ≠ 0 := by omega
        rw [group_cons, if_neg hb']
        rcases eq_or_ne ((x :: xs).drop b) [] with hdrop | hdrop
        · have hlen : xs.length + 1 ≤ b := by
            have h0 : ((x :: xs).drop b).length = 0 := by rw [hdrop]; rfl
            rw [List.length_drop] at h0
            simp only [List.length_cons] at h0
            omega
          rw [hdrop, group_nil,
            List.take_of_length_le (by simp only [List.length_cons]; omega)]
          simp only [List.getLast?_singleton, Option.getD_some, List.length_cons]
          rw [Nat.mod_eq_of_lt (by omega : xs.length + 1 - 1 < b)]
          omega
        · have hlt : ((x :: xs).drop b).length < (x :: xs).length := by
            simp only [List.length_drop, List.length_cons]; omega
          have hIH := ih _ hlt _ rfl hdrop
          have hrest : group b ((x :: xs).drop b) ≠ [] := group_ne_nil b _ hdrop
          rcases hr : group b ((x :: xs).drop b) with _ | ⟨r, rs⟩
          · exact absurd hr hrest
          · rw [List.getLast?_cons_cons]
            rw [hr] at hIH
            rw [hIH]
            simp only [List.length_drop, List.length_cons]
            have hblt : b < xs.length + 1 := by
              by_contra hc
              exact hdrop (List.drop_eq_nil_of_le
                (by simp only [List.length_cons]; omega))
            have h1 : xs.length + 1 - b - 1 = xs.length - b := by omega
            have h2 : xs.length + 1 - 1 = xs.length := by omega
            rw [h1, h2, ← Nat.mod_eq_sub_mod (by omega : xs.length ≥ b)]

theorem mod_succ_last (b n : Nat) (hn : 1 ≤ n) :
    ((n - 1) % b + 1) % b = n % b := by
  have h : n = (n - 1) + 1 := by omega
  conv_rhs => rw [h]
  rw [Nat.add_mod (n - 1) 1 b, Nat.add_mod ((n - 1) % b) 1 b,
    Nat.mod_mod_of_dvd _ dvd_rfl]

theorem group_append_singleton {α : Type} (b : Nat) (hb : 0 < b) (x : α) :
    ∀ l : List α, group b (l ++ [x]) = if l.length % b = 0
      then group b l ++ [[x]]
      else (group b l).dropLast ++ [((group b l).getLast?.getD []) ++ [x]] := by
  intro l
  generalize hn : l.length = n
  induction n using Nat.strong_induction_on generalizing l with
  | _ n ih =>
    subst hn
    have hb' : b ≠ 0 := by omega
    cases l with
    | nil =>
        rw [List.nil_append, if_pos (by simp), group_nil, List.nil_append,
          group_cons, if_neg hb',
          List.take_of_length_le (by simp only [List.length_cons, List.length_nil]; omega),
          List.drop_eq_nil_of_le (by simp only [List.length_cons, List.length_nil]; omega),
          group_nil]
    | cons y ys =>
        rcases Nat.lt_or_ge (ys.length + 1) b with hlt | hge
        · have hmodeq : (y :: ys).length % b = ys.length + 1 := by
            simp only [List.length_cons]
            exact Nat.mod_eq_of_lt hlt
          rw [if_neg (by rw [hmodeq]; omega)]
          have hgl : group b (y :: ys) = [y :: ys] := by
            rw [group_cons, if_neg hb',
              List.take_of_length_le (by simp only [List.length_cons]; omega),
              List.drop_eq_nil_of_le (by simp only [List.length_cons]; omega),
              group_nil]
          rw [hgl]
          simp only [List.dropLast_single, List.getLast?_singleton,
            Option.getD_some, List.nil_append]
          rw [List.cons_append, group_cons, if_neg hb',
            List.take_of_length_le
              (by simp only [List.length_cons, List.length_append,
                List.length_nil]; omega),
            List.drop_eq_nil_of_le
              (by simp only [List.length_cons, List.length_append,
                List.length_nil]; omega),
            group_nil]
        · have hge' : b ≤ (y :: ys).length := by simp only [List.length_cons]; omega
          have hlt2 : ((y :: ys).drop b).length < (y :: ys).length := by
            simp only [List.length_drop, List.length_cons]; omega
          have hih := ih _ hlt2 ((y :: ys).drop b) rfl
          have hmeq : ((y :: ys).drop b).length % b = (y :: ys).length % b := by
            rw [List.length_drop]
            exact (Nat.mod_eq_sub_mod hge').symm
          have hgl : group b (y :: ys) =
              (y :: ys).take b :: group b ((y :: ys).drop b) := by
            rw [group_cons, if_neg hb']
          have hsplit : group b ((y :: ys) ++ [x]) =
              (y :: ys).take b :: group b ((y :: ys).drop b ++ [x]) := by
            rw [List.cons_append, group_cons, if_neg hb', ← List.cons_append,
              List.take_append_of_le_length hge', List.drop_append_of_le_length hge']
          rw [hsplit, hih, hmeq, hgl]
          by_cases hc : (y :: ys).length % b = 0
          · rw [if_pos hc, if_pos hc, List.cons_append]
          · rw [if_neg hc, if_neg hc]
            have hdropne : (y :: ys).drop b ≠ [] := by
              intro hnil
              have h0 : ((y :: ys).drop b).length = 0 := by rw [hnil]; rfl
              rw [List.length_drop] at h0
              have hle : (y :: ys).length = b := by
                simp only [List.length_cons] at *
                omega
              exact hc (by rw [hle, Nat.mod_self])
            have hG : group b ((y :: ys).drop b) ≠ [] := group_ne_nil b _ hdropne
            rcases hG' : group b ((y :: ys).drop b) with _ | ⟨g0, gs⟩
            · exact absurd hG' hG
            · conv_rhs => rw [List.dropLast_cons_of_ne_nil (by simp),
                List.getLast?_cons_cons]
              rw [List.cons_append]

theorem pushGrouped_group (b : Nat) (hb : 0 < b) (p : List ChunkRec) (c : ChunkRec) :
    pushGrouped b (group b p) (group b p).length c =
      (group b (p ++ [c]), (group b (p ++ [c])).length) := by
  rcases eq_or_ne p [] with rfl | hp
  · have hb' : b ≠ 0 := by omega
    have hg1 : group b [c] = [[c]] := by
      rw [group_cons, if_neg hb',
        List.take_of_length_le (by simp only [List.length_cons, List.length_nil]; omega),
        List.drop_eq_nil_of_le (by simp only [List.length_cons, List.length_nil]; omega),
        group_nil]
    rw [group_nil, List.nil_append, hg1]
    simp [pushGrouped]
  · have hgn : group b p ≠ [] := group_ne_nil b p hp
    have hp1 : 1 ≤ p.length := by
      cases p with
      | nil => exact absurd rfl hp
      | cons a as => simp
    have hlast : ((group b p).getLast?.getD []).length % b = p.length % b := by
      rw [group_getLast_length b hb p hp]
      exact mod_succ_last b p.length hp1
    rw [pushGrouped, group_append_singleton b hb c p]
    by_cases hc : p.length % b = 0
    · rw [if_pos (Or.inr (by rw [hlast]; exact hc)), if_pos hc]
      simp
    · rw [if_neg (by
        push_neg
        constructor
        · exact fun h => hgn (List.length_eq_zero.mp h)
        · rw [hlast]; exact hc), if_neg hc]
      simp only [Prod.mk.injEq]
      refine ⟨trivial, ?_⟩
      rw [List.length_append, List.length_dropLast]
      have h1 : 1 ≤ (group b p).length := by
        cases hgp : group b p with
        | nil => exact absurd hgp hgn
        | cons a as => simp
      simp only [List.length_singleton]
      omega

theorem numberRecs_append (gen : Nat → String) :
    ∀ (l₁ l₂ : List (String × Option Int)) (n : Nat),
    numberRecs gen n (l₁ ++ l₂) =
      numberRecs gen n l₁ ++ numberRecs gen (n + l₁.length) l₂ := by
  intro l₁
  induction l₁ with
  | nil => intro l₂ n; simp [numberRecs]
  | cons x xs ih =>
      intro l₂ n
      simp only [List.cons_append, numberRecs, List.length_cons, List.append_eq]
      rw [ih]
      have harith : n + 1 + xs.length = n + (xs.length + 1) := by omega
      rw [harith]

theorem emitChunk_canon (gen : Nat → String) (batch_size : Option Nat)
    (hb : BatchOk batch_size) (page : Option Int)
    (tp : List (String × Option Int)) (c : PChunk) :
    emitChunk gen batch_size page (canonState gen batch_size tp) c =
      canonState gen batch_size (tp ++ [(c.text, page)]) := by
  rcases hb with rfl | ⟨b, rfl, hbpos⟩
  · simp only [emitChunk, canonState, Batches.flatList, numberRecs_append, numberRecs]
    simp
  · simp only [emitChunk, canonState, Batches.groupList]
    rw [pushGrouped_group b hbpos]
    simp only [numberRecs_append, numberRecs]
    simp

theorem foldl_emit_canon (gen : Nat → String) (batch_size : Option Nat)
    (hb : BatchOk batch_size) (page : Option Int) :
    ∀ (l : List PChunk) (tp : List (String × Option Int)),
    l.foldl (emitChunk gen batch_size page) (canonState gen batch_size tp) =
      canonState gen batch_size (tp ++ l.map (fun c => (c.text, page))) := by
  intro l
  induction l with
  | nil => intro tp; simp
  | cons c cs ih =>
      intro tp
      rw [List.foldl_cons, emitChunk_canon gen batch_size hb page tp c,
        ih (tp ++ [(c.text, page)])]
      simp

theorem chunk_documents_canon (C : Collab) (P : ChefParts) (gen : Nat → String)
    (co : ChunkOptions) (batch_size : Option Nat) (hb : BatchOk batch_size)
    (documents : List Doc) :
    chunk_documents C P gen documents batch_size co =
      canonState gen batch_size (docStream C P co documents) := by
  have main : ∀ (ds : List Doc) (tp : List (String × Option Int)),
      ds.foldl (fun st doc => (parse_markdown C P doc.text co).foldl
        (emitChunk gen batch_size doc.page) st) (canonState gen batch_size tp) =
      canonState gen batch_size (tp ++ docStream C P co ds) := by
    intro ds
    induction ds with
    | nil => intro tp; simp [docStream]
    | cons d ds ih =>
        intro tp
        rw [List.foldl_cons, foldl_emit_canon gen batch_size hb d.page, ih]
        congr 1
        simp [docStream, docChunkTexts, List.map_map]
  have hinit : (⟨match batch_size with
        | none => Batches.flat []
        | some _ => Batches.grouped [], 0, 0, 0⟩ : CDState) =
      canonState gen batch_size [] := by
    rcases hb with rfl | ⟨b, rfl, hbpos⟩
    · rfl
    · simp [canonState, numberRecs, group_nil]
  unfold chunk_documents
  rw [hinit]
  simpa using main documents []

theorem canonState_stream (gen : Nat → String) (batch_size : Option Nat)
    (hb : BatchOk batch_size) (tp : List (String × Option Int)) :
    chunkStream (canonState gen batch_size tp).batches = numberRecs gen 0 tp := by
  rcases hb with rfl | ⟨b, rfl, hbpos⟩
  · rfl
  · simp only [canonState, chunkStream]
    exact group_flatten b hbpos _

theorem numberRecs_length (gen : Nat → String) :
    ∀ (tp : List (String × Option Int)) (n : Nat),
    (numberRecs gen n tp).length = tp.length := by
  intro tp
  induction tp with
  | nil => intro n; rfl
  | cons x xs ih => intro n; simp [numberRecs, ih]

theorem numberRecs_map_seq (gen : Nat → String) :
    ∀ (tp : List (String × Option Int)) (n : Nat),
    (numberRecs gen n tp).map ChunkRec.sequence_number = List.range' n tp.length := by
  intro tp
  induction tp with
  | nil => intro n; rfl
  | cons x xs ih =>
      intro n
      simp [numberRecs, ih, List.range'_succ]

theorem numberRecs_map_text (gen : Nat → String) :
    ∀ (tp : List (String × Option Int)) (n : Nat),
    (numberRecs gen n tp).map ChunkRec.text = tp.map Prod.fst := by
  intro tp
  induction tp with
  | nil => intro n; rfl
  | cons x xs ih => intro n; simp [numberRecs, ih]

theorem numberRecs_map_page (gen : Nat → String) :
    ∀ (tp : List (String × Option Int)) (n : Nat),
    (numberRecs gen n tp).map ChunkRec.page_number = tp.map Prod.snd := by
  intro tp
  induction tp with
  | nil => intro n; rfl
  | cons x xs ih => intro n; simp [numberRecs, ih]

theorem numberRecs_map_id (gen : Nat → String) :
    ∀ (tp : List (String × Option Int)) (n : Nat),
    (numberRecs gen n tp).map ChunkRec.id = (List.range' n tp.length).map gen := by
  intro tp
  induction tp with
  | nil => intro n; rfl
  | cons x xs ih =>
      intro n
      simp [numberRecs, ih, List.range'_succ]

theorem numberRecs_map_scrub (gen₁ gen₂ : Nat → String) :
    ∀ (tp : List (String × Option Int)) (n : Nat),
    (numberRecs gen₁ n tp).map scrubRec = (numberRecs gen₂ n tp).map scrubRec := by
  intro tp
  induction tp with
  | nil => intro n; rfl
  | cons x xs ih => intro n; simp [numberRecs, scrubRec, ih]

theorem numberRecs_docStream (C : Collab) (P : ChefParts) (co : ChunkOptions)
    (gen : Nat → String) :
    ∀ (documents : List Doc) (off : Nat),
    numberRecs gen off (docStream C P co documents) =
      (docsRecs C P co gen documents off).flatten := by
  intro documents
  induction documents with
  | nil => intro off; simp [docStream, docsRecs, numberRecs]
  | cons d ds ih =>
      intro off
      simp only [docStream, List.flatMap_cons, docsRecs, List.flatten_cons]
      rw [numberRecs_append]
      congr 1
      rw [List.length_map]
      exact ih (off + (docChunkTexts C P co d).length)

theorem docsRecs_length (C : Collab) (P : ChefParts) (co : ChunkOptions)
    (gen : Nat → String) :
    ∀ (documents : List Doc) (off : Nat),
    (docsRecs C P co gen documents off).length = documents.length := by
  intro documents
  induction documents with
  | nil => intro off; rfl
  | cons d ds ih => intro off; simp [docsRecs, ih]

theorem numberRecs_page_const (gen : Nat → String) (pg : Option Int) :
    ∀ (l : List String) (off : Nat) (cr : ChunkRec),
    cr ∈ numberRecs gen off (l.map (fun t => (t, pg))) → cr.page_number = pg := by
  intro l
  induction l with
  | nil => intro off cr h; simp [numberRecs] at h
  | cons t ts ih =>
      intro off cr h
      simp only [List.map_cons, numberRecs, List.mem_cons] at h
      rcases h with rfl | h
      · rfl
      · exact ih (off + 1) cr h

theorem docsRecs_get_page (C : Collab) (P : ChefParts) (co : ChunkOptions)
    (gen : Nat → String) :
    ∀ (documents : List Doc) (off : Nat) (i : Nat) (hi : i < documents.length)
      (hi2 : i < (docsRecs C P co gen documents off).length),
    ∀ cr ∈ (docsRecs C P co gen documents off).get ⟨i, hi2⟩,
      cr.page_number = (documents.get ⟨i, hi⟩).page := by
  intro documents
  induction documents with
  | nil => intro off i hi; simp at hi
  | cons d ds ih =>
      intro off i hi hi2 cr hcr
      cases i with
      | zero =>
          exact numberRecs_page_const gen d.page _ off cr hcr
      | succ j =>
          exact ih _ j (by simpa using hi) (by simpa [docsRecs] using hi2) cr hcr

theorem group_map {α β : Type} (b : Nat) (f : α → β) :
    ∀ l : List α, (group b l).map (List.map f) = group b (l.map f) := by
  intro l
  generalize hn : l.length = n
  induction n using Nat.strong_induction_on generalizing l with
  | _ n ih =>
    subst hn
    cases l with
    | nil => simp [group_nil]
    | cons x xs =>
        rcases eq_or_ne b 0 with rfl | hb'
        · simp [group_cons]
        · have hlt : ((x :: xs).drop b).length < (x :: xs).length := by
            simp only [List.length_drop, List.length_cons]; omega
          rw [group_cons, if_neg hb']
          simp only [List.map_cons]
          rw [group_cons, if_neg hb']
          congr 1
          · rw [← List.map_cons, List.map_take]
          · rw [ih _ hlt _ rfl]
            congr 1
            rw [← List.map_cons, List.map_drop]

theorem runItems_map_fst (C : Collab) (rules : RulesArg) (csz : Nat) :
    ∀ (its : List Item) (st : PState),
    (runItems C rules csz st its).2.map Prod.fst = its := by
  intro its
  induction its with
  | nil => intro st; rfl
  | cons it its ih => intro st; simp [runItems, ih]

theorem runItems_exists_state (C : Collab) (rules : RulesArg) (csz : Nat) :
    ∀ (its : List Item) (st : PState) (it : Item), it ∈ its →
    ∃ st', (it, (processItem C rules csz st' it).2) ∈ (runItems C rules csz st its).2 := by
  intro its
  induction its with
  | nil => intro st it h; simp at h
  | cons hd tl ih =>
      intro st it h
      rcases List.mem_cons.mp h with rfl | hmem
      · exact ⟨st, by simp [runItems]⟩
      · obtain ⟨st', hst'⟩ := ih (processItem C rules csz st hd).1 it hmem
        exact ⟨st', by simp [runItems, hst']⟩

theorem numberP_ne_nil (l : List String) (n : Nat) (h : l ≠ []) :
    numberP n l ≠ [] := by
  cases l with
  | nil => exact absurd rfl h
  | cons t ts => simp [numberP]

theorem mem_sortedItems_not_image (P : ChefParts) (s : String) (it : Item)
    (h : it ∈ sortedItems P s) : it.isImage = false := by
  have hmem : it ∈ itemsOf (chefParse P (s ++ "\n")) :=
    (isort_perm startLe _).mem_iff.mp h
  simp only [itemsOf, chefParse, extract_images, List.map_nil, List.append_nil,
    List.mem_append, List.mem_map] at hmem
  rcases hmem with (⟨t, _, rfl⟩ | ⟨c, _, rfl⟩) | ⟨p, _, rfl⟩ <;> rfl

theorem canonState_total_chunks (gen : Nat → String) (batch_size : Option Nat)
    (tp : List (String × Option Int)) :
    (canonState gen batch_size tp).total_chunks = tp.length := rfl

/-- C1: across all documents of one `chunk_documents` call, the emitted chunk
stream's `sequence_number`s are exactly `0 .. total_chunks - 1` in order, with
no gaps or repeats, and the stream's texts are the in-order concatenation over
documents of that document's `parse_markdown` chunks (document order, then
element order, then piece order); the counter is not reset between documents. -/
theorem seq_numbers_exact_range (C : Collab) (P : ChefParts) (gen : Nat → String)
    (documents : List Doc) (batch_size : Option Nat) (co : ChunkOptions)
    (hb : BatchOk batch_size) :
    (chunkStream (chunk_documents C P gen documents batch_size co).batches).map
        ChunkRec.sequence_number =
      List.range (chunk_documents C P gen documents batch_size co).total_chunks ∧
    (chunkStream (chunk_documents C P gen documents batch_size co).batches).map
        ChunkRec.text =
      (docStream C P co documents).map Prod.fst := by
  rw [chunk_documents_canon C P gen co batch_size hb documents,
    canonState_stream gen batch_size hb]
  constructor
  · rw [numberRecs_map_seq, List.range_eq_range', canonState_total_chunks]
  · rw [numberRecs_map_text]

/-- C1 witness: a concrete two-document call with `batch_size = 2`. -/
theorem seq_numbers_exact_range_witness :
    BatchOk (some 2) ∧
    ((chunkStream (chunk_documents oneC textP genFn
          [⟨"aa", some 1⟩, ⟨"bb", none⟩] (some 2) {}).batches).map
        ChunkRec.sequence_number =
      List.range (chunk_documents oneC textP genFn
          [⟨"aa", some 1⟩, ⟨"bb", none⟩] (some 2) {}).total_chunks ∧
     (chunkStream (chunk_documents oneC textP genFn
          [⟨"aa", some 1⟩, ⟨"bb", none⟩] (some 2) {}).batches).map
        ChunkRec.text =
      (docStream oneC textP {} [⟨"aa", some 1⟩, ⟨"bb", none⟩]).map Prod.fst) :=
  ⟨Or.inr ⟨2, rfl, by decide⟩,
   seq_numbers_exact_range oneC textP genFn [⟨"aa", some 1⟩, ⟨"bb", none⟩]
     (some 2) {} (Or.inr ⟨2, rfl, by decide⟩)⟩

/-- C3: with a positive `batch_size = b`, the result holds
`ceil(total_chunks / b)` groups in stream order, every group except possibly
the last has size exactly `b`, every group has between 1 and `b` chunks, and
`total_batches` equals the number of groups. -/
theorem batching_exactness (C : Collab) (P : ChefParts) (gen : Nat → String)
    (documents : List Doc) (b : Nat) (co : ChunkOptions) (hb : 0 < b) :
    ∃ gs : List (List ChunkRec),
      (chunk_documents C P gen documents (some b) co).batches =
        Batches.grouped gs ∧
      (chunk_documents C P gen documents (some b) co).total_batches =
        gs.length ∧
      gs.length =
        ((chunk_documents C P gen documents (some b) co).total_chunks + b - 1) / b ∧
      (∀ g ∈ gs.dropLast, g.length = b) ∧
      (∀ g ∈ gs, 1 ≤ g.length ∧ g.length ≤ b) ∧
      gs.flatten.length =
        (chunk_documents C P gen documents (some b) co).total_chunks := by
  have hbk : BatchOk (some b) := Or.inr ⟨b, rfl, hb⟩
  rw [chunk_documents_canon C P gen co (some b) hbk documents]
  refine ⟨group b (numberRecs gen 0 (docStream C P co documents)), rfl, rfl,
    ?_, group_dropLast_length b hb _, group_mem_length b hb _, ?_⟩
  · rw [group_length b hb, numberRecs_length, canonState_total_chunks]
  · rw [group_flatten b hb, numberRecs_length, canonState_total_chunks]

/-- C3 witness: seven one-chunk documents with `batch_size = 3`. -/
theorem batching_exactness_witness :
    0 < 3 ∧
    (∃ gs : List (List ChunkRec),
      (chunk_documents oneC textP genFn
          [⟨"a", none⟩, ⟨"b", none⟩, ⟨"c", none⟩, ⟨"d", none⟩, ⟨"e", none⟩,
           ⟨"f", none⟩, ⟨"g", none⟩] (some 3) {}).batches =
        Batches.grouped gs ∧
      (chunk_documents oneC textP genFn
          [⟨"a", none⟩, ⟨"b", none⟩, ⟨"c", none⟩, ⟨"d", none⟩, ⟨"e", none⟩,
           ⟨"f", none⟩, ⟨"g", none⟩] (some 3) {}).total_batches = gs.length ∧
      gs.length =
        ((chunk_documents oneC textP genFn
          [⟨"a", none⟩, ⟨"b", none⟩, ⟨"c", none⟩, ⟨"d", none⟩, ⟨"e", none⟩,
           ⟨"f", none⟩, ⟨"g", none⟩] (some 3) {}).total_chunks + 3 - 1) / 3 ∧
      (∀ g ∈ gs.dropLast, g.length = 3) ∧
      (∀ g ∈ gs, 1 ≤ g.length ∧ g.length ≤ 3) ∧
      gs.flatten.length =
        (chunk_documents oneC textP genFn
          [⟨"a", none⟩, ⟨"b", none⟩, ⟨"c", none⟩, ⟨"d", none⟩, ⟨"e", none⟩,
           ⟨"f", none⟩, ⟨"g", none⟩] (some 3) {}).total_chunks) :=
  ⟨by decide,
   batching_exactness oneC textP genFn
     [⟨"a", none⟩, ⟨"b", none⟩, ⟨"c", none⟩, ⟨"d", none⟩, ⟨"e", none⟩,
      ⟨"f", none⟩, ⟨"g", none⟩] 3 {} (by decide)⟩

/-- C5: the emitted stream decomposes into consecutive per-document segments in
document order; every chunk record in document `i`'s segment carries exactly
that document's page number (attached uniformly, never a per-element value),
while the global sequence numbers run `0 .. total_chunks - 1` across the whole
stream. -/
theorem page_number_uniform (C : Collab) (P : ChefParts) (gen : Nat → String)
    (documents : List Doc) (batch_size : Option Nat) (co : ChunkOptions)
    (hb : BatchOk batch_size) :
    chunkStream (chunk_documents C P gen documents batch_size co).batches =
      (docsRecs C P co gen documents 0).flatten ∧
    (docsRecs C P co gen documents 0).length = documents.length ∧
    (∀ (i : Nat) (hi : i < documents.length)
        (hi2 : i < (docsRecs C P co gen documents 0).length),
      ∀ cr ∈ (docsRecs C P co gen documents 0).get ⟨i, hi2⟩,
        cr.page_number = (documents.get ⟨i, hi⟩).page) ∧
    (chunkStream (chunk_documents C P gen documents batch_size co).batches).map
        ChunkRec.sequence_number =
      List.range (chunk_documents C P gen documents batch_size co).total_chunks := by
  refine ⟨?_, docsRecs_length C P co gen documents 0,
    docsRecs_get_page C P co gen documents 0, ?_⟩
  · rw [chunk_documents_canon C P gen co batch_size hb documents,
      canonState_stream gen batch_size hb, numberRecs_docStream]
  · rw [chunk_documents_canon C P gen co batch_size hb documents,
      canonState_stream gen batch_size hb, numberRecs_map_seq,
      List.range_eq_range', canonState_total_chunks]

/-- C5 witness: two documents with pages 1 and 2, batching disabled. -/
theorem page_number_uniform_witness :
    BatchOk none ∧
    (chunkStream (chunk_documents oneC textP genFn
          [⟨"aa", some 1⟩, ⟨"bb", some 2⟩] none {}).batches =
      (docsRecs oneC textP {} genFn [⟨"aa", some 1⟩, ⟨"bb", some 2⟩] 0).flatten ∧
    (docsRecs oneC textP {} genFn [⟨"aa", some 1⟩, ⟨"bb", some 2⟩] 0).length =
      ([⟨"aa", some 1⟩, ⟨"bb", some 2⟩] : List Doc).length ∧
    (∀ (i : Nat) (hi : i < ([⟨"aa", some 1⟩, ⟨"bb", some 2⟩] : List Doc).length)
        (hi2 : i < (docsRecs oneC textP {} genFn
          [⟨"aa", some 1⟩, ⟨"bb", some 2⟩] 0).length),
      ∀ cr ∈ (docsRecs oneC textP {} genFn
          [⟨"aa", some 1⟩, ⟨"bb", some 2⟩] 0).get ⟨i, hi2⟩,
        cr.page_number =
          (([⟨"aa", some 1⟩, ⟨"bb", some 2⟩] : List Doc).get ⟨i, hi⟩).page) ∧
    (chunkStream (chunk_documents oneC textP genFn
          [⟨"aa", some 1⟩, ⟨"bb", some 2⟩] none {}).batches).map
        ChunkRec.sequence_number =
      List.range (chunk_documents oneC textP genFn
          [⟨"aa", some 1⟩, ⟨"bb", some 2⟩] none {}).total_chunks) :=
  ⟨Or.inl rfl,
   page_number_uniform oneC textP genFn [⟨"aa", some 1⟩, ⟨"bb", some 2⟩]
     none {} (Or.inl rfl)⟩

/-- C8: with `batch_size = null`, chunk records are appended directly, so
`batches` is a flat ordered list with one record per chunk, and
`total_batches` is 0. -/
theorem null_batch_size_flat (C : Collab) (P : ChefParts) (gen : Nat → String)
    (documents : List Doc) (co : ChunkOptions) :
    ∃ l : List ChunkRec,
      (chunk_documents C P gen documents none co).batches = Batches.flat l ∧
      l.length = (chunk_documents C P gen documents none co).total_chunks ∧
      (chunk_documents C P gen documents none co).total_batches = 0 := by
  rw [chunk_documents_canon C P gen co none (Or.inl rfl) documents]
  exact ⟨numberRecs gen 0 (docStream C P co documents), rfl,
    by rw [numberRecs_length, canonState_total_chunks], rfl⟩

/-- C9: group boundaries depend only on the global chunk stream, not on
document boundaries: the grouped batches of a positive-`batch_size` call are
exactly `group b` of the flat stream of the same call (so a partially filled
last group keeps receiving the next document's chunks), their concatenation is
that stream, and after every emitted prefix every group holds between 1 and
`b` chunks. -/
theorem grouping_ignores_document_boundaries (C : Collab) (P : ChefParts)
    (gen : Nat → String) (documents : List Doc) (b : Nat) (co : ChunkOptions)
    (hb : 0 < b) :
    ∃ (S : List ChunkRec) (gs : List (List ChunkRec)),
      (chunk_documents C P gen documents none co).batches = Batches.flat S ∧
      (chunk_documents C P gen documents (some b) co).batches =
        Batches.grouped gs ∧
      gs = group b S ∧
      gs.flatten = S ∧
      (∀ n : Nat, ∀ g ∈ group b (S.take n), 1 ≤ g.length ∧ g.length ≤ b) := by
  rw [chunk_documents_canon C P gen co none (Or.inl rfl) documents,
    chunk_documents_canon C P gen co (some b) (Or.inr ⟨b, rfl, hb⟩) documents]
  exact ⟨numberRecs gen 0 (docStream C P co documents),
    group b (numberRecs gen 0 (docStream C P co documents)), rfl, rfl, rfl,
    group_flatten b hb _, fun n => group_mem_length b hb _⟩

/-- C9 witness: three one-chunk documents with `batch_size = 2`. -/
theorem grouping_ignores_document_boundaries_witness :
    0 < 2 ∧
    (∃ (S : List ChunkRec) (gs : List (List ChunkRec)),
      (chunk_documents oneC textP genFn
          [⟨"a", none⟩, ⟨"b", none⟩, ⟨"c", none⟩] none {}).batches =
        Batches.flat S ∧
      (chunk_documents oneC textP genFn
          [⟨"a", none⟩, ⟨"b", none⟩, ⟨"c", none⟩] (some 2) {}).batches =
        Batches.grouped gs ∧
      gs = group 2 S ∧
      gs.flatten = S ∧
      (∀ n : Nat, ∀ g ∈ group 2 (S.take n), 1 ≤ g.length ∧ g.length ≤ 2)) :=
  ⟨by decide,
   grouping_ignores_document_boundaries oneC textP genFn
     [⟨"a", none⟩, ⟨"b", none⟩, ⟨"c", none⟩] 2 {} (by decide)⟩

/-- C10: two runs of `chunk_documents` on the same input differ only in the
per-run fresh ids: with ids blanked out the batches coincide, all totals
coincide, and each run's ids are exactly its own generator's successive
outputs (one fresh id per chunk, in order). -/
theorem deterministic_except_ids (C : Collab) (P : ChefParts)
    (gen₁ gen₂ : Nat → String) (documents : List Doc) (batch_size : Option Nat)
    (co : ChunkOptions) (hb : BatchOk batch_size) :
    scrubBatches (chunk_documents C P gen₁ documents batch_size co).batches =
      scrubBatches (chunk_documents C P gen₂ documents batch_size co).batches ∧
    (chunk_documents C P gen₁ documents batch_size co).total_characters =
      (chunk_documents C P gen₂ documents batch_size co).total_characters ∧
    (chunk_documents C P gen₁ documents batch_size co).total_chunks =
      (chunk_documents C P gen₂ documents batch_size co).total_chunks ∧
    (chunk_documents C P gen₁ documents batch_size co).total_batches =
      (chunk_documents C P gen₂ documents batch_size co).total_batches ∧
    (chunkStream (chunk_documents C P gen₁ documents batch_size co).batches).map
        ChunkRec.id =
      (List.range
        (chunk_documents C P gen₁ documents batch_size co).total_chunks).map
        gen₁ := by
  rw [chunk_documents_canon C P gen₁ co batch_size hb documents,
    chunk_documents_canon C P gen₂ co batch_size hb documents]
  refine ⟨?_, rfl, rfl, ?_, ?_⟩
  · rcases hb with rfl | ⟨b, rfl, hbpos⟩
    · simp only [canonState, scrubBatches]
      rw [numberRecs_map_scrub gen₁ gen₂]
    · simp only [canonState, scrubBatches]
      rw [group_map, group_map, numberRecs_map_scrub gen₁ gen₂]
  · rcases hb with rfl | ⟨b, rfl, hbpos⟩
    · rfl
    · simp only [canonState]
      rw [group_length b hbpos, group_length b hbpos, numberRecs_length,
        numberRecs_length]
  · rw [canonState_stream gen₁ batch_size hb, numberRecs_map_id,
      List.range_eq_range', canonState_total_chunks]

/-- C10 witness: two concrete runs with different id generators. -/
theorem deterministic_except_ids_witness :
    BatchOk (some 2) ∧
    (scrubBatches (chunk_documents oneC textP genFn
          [⟨"aa", some 1⟩, ⟨"bb", none⟩] (some 2) {}).batches =
      scrubBatches (chunk_documents oneC textP genFn2
          [⟨"aa", some 1⟩, ⟨"bb", none⟩] (some 2) {}).batches ∧
    (chunk_documents oneC textP genFn
        [⟨"aa", some 1⟩, ⟨"bb", none⟩] (some 2) {}).total_characters =
      (chunk_documents oneC textP genFn2
        [⟨"aa", some 1⟩, ⟨"bb", none⟩] (some 2) {}).total_characters ∧
    (chunk_documents oneC textP genFn
        [⟨"aa", some 1⟩, ⟨"bb", none⟩] (some 2) {}).total_chunks =
      (chunk_documents oneC textP genFn2
        [⟨"aa", some 1⟩, ⟨"bb", none⟩] (some 2) {}).total_chunks ∧
    (chunk_documents oneC textP genFn
        [⟨"aa", some 1⟩, ⟨"bb", none⟩] (some 2) {}).total_batches =
      (chunk_documents oneC textP genFn2
        [⟨"aa", some 1⟩, ⟨"bb", none⟩] (some 2) {}).total_batches ∧
    (chunkStream (chunk_documents oneC textP genFn
          [⟨"aa", some 1⟩, ⟨"bb", none⟩] (some 2) {}).batches).map
        ChunkRec.id =
      (List.range (chunk_documents oneC textP genFn
          [⟨"aa", some 1⟩, ⟨"bb", none⟩] (some 2) {}).total_chunks).map genFn) :=
  ⟨Or.inr ⟨2, rfl, by decide⟩,
   deterministic_except_ids oneC textP genFn genFn2
     [⟨"aa", some 1⟩, ⟨"bb", none⟩] (some 2) {} (Or.inr ⟨2, rfl, by decide⟩)⟩

/-- C2: if every code-split attempt for a code block fails (its declared
language is not a recognized grammar) and the prose splitter yields at least
one piece on the block's content, then the element still contributes at least
one chunk, produced via the recursive prose splitter, and `parse_markdown`
returns a non-empty chunk list — the failure is consumed by the fallback
branch of `processItem` and never escapes to the caller (the embedding's
`Except` value is eliminated there, so `parse_markdown` and `chunk_documents`
are total functions of their collaborators). -/
theorem code_fallback_never_raises (C : Collab) (P : ChefParts) (s : String)
    (co : ChunkOptions) (c : MarkdownCode)
    (hmem : Item.code c ∈ sortedItems P s)
    (hfail : ∀ cc, (codeTry C co.chunk_size cc c).2 = Except.error ())
    (hne : ∀ r, C.recChunk r co.chunk_size c.content ≠ []) :
    (∃ pr ∈ parseParts C P s co, pr.1 = Item.code c ∧ pr.2 ≠ [] ∧
      ∃ r, pr.2 = C.recChunk r co.chunk_size c.content) ∧
    parse_markdown C P s co ≠ [] := by
  obtain ⟨st', hst'⟩ := runItems_exists_state C (rulesFor co.language_code)
    co.chunk_size (sortedItems P s) {} (Item.code c) hmem
  have hproc : (processItem C (rulesFor co.language_code) co.chunk_size st'
      (Item.code c)).2 =
      C.recChunk (st'.rc.getD RulesArg.classObj) co.chunk_size c.content := by
    rcases hct : codeTry C co.chunk_size st'.cc c with ⟨cc2, res⟩
    have hres : res = Except.error () := by
      have h0 := hfail st'.cc
      rw [hct] at h0
      exact h0
    subst hres
    simp [processItem, hct]
  have hprmem : (Item.code c, (processItem C (rulesFor co.language_code)
      co.chunk_size st' (Item.code c)).2) ∈ parseParts C P s co := hst'
  have hchunks : (processItem C (rulesFor co.language_code) co.chunk_size st'
      (Item.code c)).2 ≠ [] := by
    rw [hproc]
    exact hne _
  refine ⟨⟨_, hprmem, rfl, hchunks, st'.rc.getD RulesArg.classObj, hproc⟩, ?_⟩
  obtain ⟨y, hy⟩ := List.exists_mem_of_ne_nil _ hchunks
  have hflat : String.trim y ∈
      (parseParts C P s co).flatMap (fun pr => pr.2.map String.trim) :=
    List.mem_flatMap.mpr ⟨_, hprmem, List.mem_map_of_mem String.trim hy⟩
  exact numberP_ne_nil _ 0 (List.ne_nil_of_mem hflat)

/-- C2 witness: a code block with unrecognized language "xyz"; the collaborator
`failC` fails every code-split attempt while its prose splitter always returns
one piece. -/
theorem code_fallback_never_raises_witness :
    Item.code ⟨"badcode", some "xyz", 10⟩ ∈ sortedItems proseThenCodeP "doc" ∧
    (∀ cc, (codeTry failC (2048 : Nat) cc ⟨"badcode", some "xyz", 10⟩).2 =
      Except.error ()) ∧
    (∀ r, failC.recChunk r 2048 "badcode" ≠ []) ∧
    ((∃ pr ∈ parseParts failC proseThenCodeP "doc" {},
        pr.1 = Item.code ⟨"badcode", some "xyz", 10⟩ ∧ pr.2 ≠ [] ∧
        ∃ r, pr.2 = failC.recChunk r 2048 "badcode") ∧
      parse_markdown failC proseThenCodeP "doc" {} ≠ []) := by
  have h1 : Item.code ⟨"badcode", some "xyz", 10⟩ ∈ sortedItems proseThenCodeP "doc" := by
    decide
  have h2 : ∀ cc, (codeTry failC (2048 : Nat) cc ⟨"badcode", some "xyz", 10⟩).2 =
      Except.error () := by
    intro cc
    rcases cc with _ | L
    · rfl
    · by_cases h : L = "xyz"
      · subst h; rfl
      · simp [codeTry, failC, h]
  have h3 : ∀ r, failC.recChunk r 2048 "badcode" ≠ [] := by
    intro r
    cases r <;> simp [failC]
  exact ⟨h1, h2, h3,
    code_fallback_never_raises failC proseThenCodeP "doc" {}
      ⟨"badcode", some "xyz", 10⟩ h1 h2 h3⟩

/-- C4: the sorted item list of `parse_markdown` is ordered by non-decreasing
`start_index`; for a table, a code block and a prose segment sharing one
offset, the table precedes the code block, which precedes the prose segment
(the four families are concatenated tables-code-images-prose and sorted
stably); and the emitted chunks are the in-order flattening of the per-item
chunk lists, so chunk emission follows that element order. -/
theorem chunks_follow_stable_element_order (C : Collab) (P : ChefParts)
    (s : String) (co : ChunkOptions) (t : MarkdownTable) (c : MarkdownCode)
    (p : ProseChunk)
    (ht : t ∈ (chefParse P (s ++ "\n")).tables)
    (hc : c ∈ (chefParse P (s ++ "\n")).code)
    (hp : p ∈ (chefParse P (s ++ "\n")).chunks)
    (etc : t.start_index = c.start_index)
    (ecp : c.start_index = p.start_index) :
    (sortedItems P s).Pairwise (fun a b => a.start_index ≤ b.start_index) ∧
    [Item.table t, Item.code c].Sublist (sortedItems P s) ∧
    [Item.code c, Item.prose p].Sublist (sortedItems P s) ∧
    [Item.table t, Item.prose p].Sublist (sortedItems P s) ∧
    (parseParts C P s co).map Prod.fst = sortedItems P s ∧
    parse_markdown C P s co =
      numberP 0 ((parseParts C P s co).flatMap (fun pr => pr.2.map String.trim)) := by
  have hT : [Item.table t].Sublist
      ((chefParse P (s ++ "\n")).tables.map Item.table) :=
    List.singleton_sublist.mpr (List.mem_map_of_mem Item.table ht)
  have hC : [Item.code c].Sublist
      ((chefParse P (s ++ "\n")).code.map Item.code) :=
    List.singleton_sublist.mpr (List.mem_map_of_mem Item.code hc)
  have hP : [Item.prose p].Sublist
      ((chefParse P (s ++ "\n")).chunks.map Item.prose) :=
    List.singleton_sublist.mpr (List.mem_map_of_mem Item.prose hp)
  have hTC : [Item.table t, Item.code c].Sublist
      (itemsOf (chefParse P (s ++ "\n"))) := by
    have h0 : ([Item.table t] ++ [Item.code c]).Sublist
        ((chefParse P (s ++ "\n")).tables.map Item.table ++
          (chefParse P (s ++ "\n")).code.map Item.code) :=
      List.Sublist.append hT hC
    exact h0.trans ((List.sublist_append_left _ _).trans
      (List.sublist_append_left _ _))
  have hABCc : [Item.code c].Sublist
      ((chefParse P (s ++ "\n")).tables.map Item.table ++
        (chefParse P (s ++ "\n")).code.map Item.code ++
        (chefParse P (s ++ "\n")).images.map Item.image) := by
    refine List.Sublist.trans hC ?_
    exact (List.sublist_append_right _ _).trans (List.sublist_append_left _ _)
  have hABCt : [Item.table t].Sublist
      ((chefParse P (s ++ "\n")).tables.map Item.table ++
        (chefParse P (s ++ "\n")).code.map Item.code ++
        (chefParse P (s ++ "\n")).images.map Item.image) := by
    refine List.Sublist.trans hT ?_
    exact (List.sublist_append_left _ _).trans (List.sublist_append_left _ _)
  have hCP : [Item.code c, Item.prose p].Sublist
      (itemsOf (chefParse P (s ++ "\n"))) :=
    List.Sublist.append hABCc hP
  have hTP : [Item.table t, Item.prose p].Sublist
      (itemsOf (chefParse P (s ++ "\n"))) :=
    List.Sublist.append hABCt hP
  have leTC : startLe (Item.table t) (Item.code c) = true := by
    simp only [startLe, Item.start_index, decide_eq_true_eq]
    omega
  have leCP : startLe (Item.code c) (Item.prose p) = true := by
    simp only [startLe, Item.start_index, decide_eq_true_eq]
    omega
  have leTP : startLe (Item.table t) (Item.prose p) = true := by
    simp only [startLe, Item.start_index, decide_eq_true_eq]
    omega
  refine ⟨?_, ?_, ?_, ?_, ?_, rfl⟩
  · exact (isort_pairwise startLe startLe_trans startLe_total _).imp
      (fun h => of_decide_eq_true h)
  · exact isort_stable_pair startLe leTC _ hTC
  · exact isort_stable_pair startLe leCP _ hCP
  · exact isort_stable_pair startLe leTP _ hTP
  · exact runItems_map_fst C (rulesFor co.language_code) co.chunk_size
      (sortedItems P s) {}

/-- C4 witness: a table, a code block and a prose segment all at offset 5. -/
theorem chunks_follow_stable_element_order_witness :
    (⟨"T", 5⟩ : MarkdownTable) ∈ (chefParse equalOffP ("x" ++ "\n")).tables ∧
    (⟨"C", none, 5⟩ : MarkdownCode) ∈ (chefParse equalOffP ("x" ++ "\n")).code ∧
    (⟨"P", 5⟩ : ProseChunk) ∈ (chefParse equalOffP ("x" ++ "\n")).chunks ∧
    ((sortedItems equalOffP "x").Pairwise
        (fun a b => a.start_index ≤ b.start_index) ∧
      [Item.table ⟨"T", 5⟩, Item.code ⟨"C", none, 5⟩].Sublist
        (sortedItems equalOffP "x") ∧
      [Item.code ⟨"C", none, 5⟩, Item.prose ⟨"P", 5⟩].Sublist
        (sortedItems equalOffP "x") ∧
      [Item.table ⟨"T", 5⟩, Item.prose ⟨"P", 5⟩].Sublist
        (sortedItems equalOffP "x") ∧
      (parseParts oneC equalOffP "x" {}).map Prod.fst = sortedItems equalOffP "x" ∧
      parse_markdown oneC equalOffP "x" {} =
        numberP 0 ((parseParts oneC equalOffP "x" {}).flatMap
          (fun pr => pr.2.map String.trim))) := by
  refine ⟨by decide, by decide, by decide, ?_⟩
  exact chunks_follow_stable_element_order oneC equalOffP "x" {}
    ⟨"T", 5⟩ ⟨"C", none, 5⟩ ⟨"P", 5⟩ (by decide) (by decide) (by decide) rfl rfl

/-- C6 counterexample: with `language_code = "en"` (supported) and a prose
element preceding a code block whose splitting fails, the fallback prose split
of the code content is produced by the locale-specific rules — the
already-constructed prose splitter is reused — and differs from what the
"no special rules" fallback splitter would produce.  This contradicts the
claim that the fallback always uses a splitter built with the
"no special rules" rule set. -/
theorem code_fallback_rules_counterexample :
    (parseParts failC proseThenCodeP "doc"
        { chunk_size := 2048, language_code := some "en" }).map Prod.snd =
      [failC.recChunk (RulesArg.locale "en") 2048 ("hello"),
       failC.recChunk (RulesArg.locale "en") 2048 ("badcode")] ∧
    failC.recChunk (RulesArg.locale "en") 2048 ("badcode") ≠
      failC.recChunk RulesArg.classObj 2048 ("badcode") := by
  constructor
  · rfl
  · decide

/-- C6 (amended): when code-splitting fails, the fallback splits the block's
content with the recursive prose splitter; a fresh splitter with the module
default rules object is constructed only when no prose splitter exists yet —
an existing one (possibly built with locale-specific rules) is reused, and the
resulting splitter is recorded in the state. -/
theorem code_fallback_reuses_prose_splitter (C : Collab) (rules : RulesArg)
    (csz : Nat) (st : PState) (c : MarkdownCode)
    (hfail : (codeTry C csz st.cc c).2 = Except.error ()) :
    (processItem C rules csz st (Item.code c)).2 =
      C.recChunk (st.rc.getD RulesArg.classObj) csz c.content ∧
    (processItem C rules csz st (Item.code c)).1.rc =
      some (st.rc.getD RulesArg.classObj) := by
  rcases hct : codeTry C csz st.cc c with ⟨cc2, res⟩
  have hres : res = Except.error () := by
    rw [hct] at hfail
    exact hfail
  subst hres
  simp [processItem, hct]

/-- C6 amended-claim witness: a failing code block with a locale prose splitter
already in the state. -/
theorem code_fallback_reuses_prose_splitter_witness :
    (codeTry failC 2048 (⟨some (RulesArg.locale "en"), none⟩ : PState).cc
        ⟨"badcode", some "xyz", 10⟩).2 = Except.error () ∧
    ((processItem failC RulesArg.defaultInst 2048
        ⟨some (RulesArg.locale "en"), none⟩ (Item.code ⟨"badcode", some "xyz", 10⟩)).2 =
      failC.recChunk ((some (RulesArg.locale "en")).getD RulesArg.classObj) 2048
        "badcode" ∧
    (processItem failC RulesArg.defaultInst 2048
        ⟨some (RulesArg.locale "en"), none⟩ (Item.code ⟨"badcode", some "xyz", 10⟩)).1.rc =
      some ((some (RulesArg.locale "en")).getD RulesArg.classObj)) :=
  ⟨rfl, code_fallback_reuses_prose_splitter failC RulesArg.defaultInst 2048
    ⟨some (RulesArg.locale "en"), none⟩ ⟨"badcode", some "xyz", 10⟩ rfl⟩

/-- C7: image extraction is overridden to return the empty list, so the parsed
document's images family is empty, no sorted item is an image, and no
chunk-producing provenance entry of `parse_markdown` stems from an image
element. -/
theorem images_never_chunked (C : Collab) (P : ChefParts) (s : String)
    (co : ChunkOptions) (it : Item) (pr : Item × List String)
    (hit : it ∈ sortedItems P s) (hpr : pr ∈ parseParts C P s co) :
    extract_images s = [] ∧ (chefParse P (s ++ "\n")).images = [] ∧
    it.isImage = false ∧ pr.1.isImage = false := by
  refine ⟨rfl, rfl, mem_sortedItems_not_image P s it hit, ?_⟩
  have h1 : pr.1 ∈ (parseParts C P s co).map Prod.fst :=
    List.mem_map_of_mem Prod.fst hpr
  have h2 : (parseParts C P s co).map Prod.fst = sortedItems P s :=
    runItems_map_fst C (rulesFor co.language_code) co.chunk_size
      (sortedItems P s) {}
  rw [h2] at h1
  exact mem_sortedItems_not_image P s pr.1 h1

/-- C7 witness: a one-prose-element document. -/
theorem images_never_chunked_witness :
    Item.prose ⟨"x" ++ "\n", 0⟩ ∈ sortedItems textP "x" ∧
    (Item.prose ⟨"x" ++ "\n", 0⟩, ["x" ++ "\n"]) ∈ parseParts oneC textP "x" {} ∧
    (extract_images "x" = [] ∧ (chefParse textP ("x" ++ "\n")).images = [] ∧
      (Item.prose ⟨"x" ++ "\n", 0⟩).isImage = false ∧
      (Item.prose ⟨"x" ++ "\n", 0⟩, ["x" ++ "\n"]).1.isImage = false) := by
  refine ⟨by decide, by decide, ?_⟩
  exact images_never_chunked oneC textP "x" {} (Item.prose ⟨"x" ++ "\n", 0⟩)
    (Item.prose ⟨"x" ++ "\n", 0⟩, ["x" ++ "\n"]) (by decide) (by decide)

end Chunker
